import Mathlib

/-!
Shallow embedding of the core of `vale-ls` (errata-ai/vale-ls), an LSP server
wrapping the Vale prose linter.  Each definition is translated from the Rust
source: `src/utils.rs` (position and range conversion), `src/server.rs`
(diagnostics pipeline, code actions, document map), `src/vale.rs` (subprocess
output parsing and executable resolution) and `src/styles.rs` (style-root
indexing and vocabulary files).

Modelling conventions: Rust `usize` and `u32` arithmetic is `Nat` with an
explicit wrap-around modulus where the source can overflow; filesystem state,
the external `vale` process and URL parsing are passed in as explicit
parameters (oracles); a Rust panic (out-of-bounds rope access) is an
`Except`-level error so that access safety is a provable proposition.
-/

namespace ValeLs

/-- Wrap-around modulus of Rust `usize` (64-bit targets). -/
def USIZE : Nat := 2 ^ 64

/-- Wrap-around modulus of Rust `u32`. -/
def U32 : Nat := 2 ^ 32

/-! ## `utils.rs`: `position_to_range`

The Rust function reads characters of one rope line via `context.char(i)`,
which panics when `i` is out of bounds.  We model a line as `List Char` and a
character read as an `Except Unit Char` that errors exactly when the index is
out of bounds, so the theorems can speak about access safety.  The Rust
whitespace test `char::is_whitespace` (a Unicode property table) is abstracted
as a parameter `ws : Char → Bool`. -/

/-- Reading character `i` of a line; `.error ()` models the rope panic on an
out-of-bounds index. -/
def charAt (l : List Char) (i : Nat) : Except Unit Char :=
  if h : i < l.length then .ok (l.get ⟨i, h⟩) else .error ()

/-- Models `context.chars().count() - 1` from `position_to_range`: `usize`
subtraction, which wraps around at zero (release-mode semantics). -/
def extentOf (n : Nat) : Nat := (n + (USIZE - 1)) % USIZE

/-- The left-expansion loop of `position_to_range`:
`while start > 0 && !context.char(start - 1).is_whitespace() { start -= 1 }`.
Each iteration first reads `char(start - 1)` (possibly out of bounds). -/
def startLoop (ws : Char → Bool) (l : List Char) : Nat → Except Unit Nat
  | 0 => .ok 0
  | s + 1 =>
    match charAt l s with
    | .error u => .error u
    | .ok c => if ws c then .ok (s + 1) else startLoop ws l s

/-- The right-expansion loop of `position_to_range`, with the remaining
iteration count `ext - e` made explicit as structural fuel:
`while end < extent && !context.char(end + 1).is_whitespace() { end += 1 }`. -/
def endLoopAux (ws : Char → Bool) (l : List Char) : Nat → Nat → Except Unit Nat
  | 0, e => .ok e
  | k + 1, e =>
    match charAt l (e + 1) with
    | .error u => .error u
    | .ok c => if ws c then .ok e else endLoopAux ws l k (e + 1)

/-- The right-expansion loop of `position_to_range`, entered at index `e`
with loop bound `ext`. -/
def endLoop (ws : Char → Bool) (l : List Char) (ext : Nat) (e : Nat) :
    Except Unit Nat :=
  endLoopAux ws l (ext - e) e

/-- `utils.rs::position_to_range`, restricted to the selected line `l` and the
zero-based cursor column `index`.  Returns `.ok none` for the `None` (no
token) result, `.ok (some (start, end))` for `Some(Range ...)`, and `.error`
when the Rust code would panic on an out-of-bounds rope access. -/
def position_to_range (ws : Char → Bool) (l : List Char) (index : Nat) :
    Except Unit (Option (Nat × Nat)) :=
  let ext := extentOf l.length
  match startLoop ws l index with
  | .error u => .error u
  | .ok s =>
    match endLoop ws l ext index with
    | .error u => .error u
    | .ok e =>
      if s = e then .ok none
      else .ok (some (s, if index < e then e + 1 else e))

/-! ## `vale.rs`: alerts, output parsing, executable resolution -/

/-- `vale.rs::ValeAction`. -/
structure ValeAction where
  name : Option String
  params : Option (List String)
deriving DecidableEq

/-- `vale.rs::ValeAlert`.  `line` and `span` are `usize` in the source. -/
structure ValeAlert where
  action : ValeAction
  check : String
  matched : String
  description : String
  link : String
  line : Nat
  span : Nat × Nat
  severity : String
  message : String
deriving DecidableEq

/-- LSP `Position` (fields are `u32` in the source). -/
structure Position where
  line : Nat
  character : Nat
deriving DecidableEq

/-- LSP `Range`.  The second field is named `end` in the source, a Lean
keyword, so it is called `stop` here. -/
structure Range where
  start : Position
  stop : Position
deriving DecidableEq

/-- Models a Rust `n as u32 - 1` on a `usize` value `n`: truncation to 32
bits followed by wrapping subtraction of one. -/
def u32SubOne (n : Nat) : Nat := (n % U32 + (U32 - 1)) % U32

/-- `utils.rs::alert_to_range`:
start line `alert.line as u32 - 1`, start character `alert.span.0 as u32 - 1`,
end line `alert.line as u32 - 1`, end character `alert.span.1 as u32`. -/
def alert_to_range (a : ValeAlert) : Range :=
  { start := { line := u32SubOne a.line, character := u32SubOne a.span.1 },
    stop := { line := u32SubOne a.line, character := a.span.2 % U32 } }

/-- LSP diagnostic severity levels used by the server. -/
inductive DiagnosticSeverity where
  | ERROR
  | WARNING
  | INFORMATION
  | HINT
deriving DecidableEq

/-- `utils.rs::severity_to_level`. -/
def severity_to_level (severity : String) : DiagnosticSeverity :=
  match severity with
  | "error" => .ERROR
  | "warning" => .WARNING
  | "suggestion" => .INFORMATION
  | _ => .HINT

/-- The deterministic fields of the LSP `Diagnostic` built by
`utils.rs::alert_to_diagnostic`.  The optional `code_description` field,
which depends on the external URL parser applied to `alert.link`, is not
modelled; `data` is the alert round-tripped as the payload. -/
structure Diagnostic where
  range : Range
  severity : DiagnosticSeverity
  code : String
  source : String
  message : String
  data : ValeAlert
deriving DecidableEq

/-- `utils.rs::alert_to_diagnostic` (deterministic fields). -/
def alert_to_diagnostic (a : ValeAlert) : Diagnostic :=
  { range := alert_to_range a
    severity := severity_to_level a.severity
    code := a.check
    source := "vale-ls"
    message := a.message
    data := a }

/-- The diagnostics accumulation of `server.rs::Backend::on_change`: for each
`(file, alerts)` pair of the lint result, one diagnostic per alert, in
order. -/
def on_change_diagnostics (result : List (String × List ValeAlert)) :
    List Diagnostic :=
  result.flatMap (fun p => p.2.map alert_to_diagnostic)

/-- The range of the `TextEdit` built by `server.rs::Backend::code_action`
for one alert: `None` when the alert carries no action name; otherwise the
diagnostic range from `alert_to_range`, with `end.character += 1` (wrapping
`u32` addition) when the action name is `"remove"`. -/
def code_action_edit_range (a : ValeAlert) : Option Range :=
  let range := alert_to_range a
  match a.action.name with
  | none => none
  | some action_name =>
    if action_name = "remove" then
      some { range with
             stop := { range.stop with
                       character := (range.stop.character + 1) % U32 } }
    else
      some range

/-- The error type of `error.rs`, restricted to the variants reachable from
the modelled functions: a JSON decoding failure and the catch-all message
variant. -/
inductive Error where
  | Json : Error
  | Msg : String → Error
deriving DecidableEq

/-- The `std::process::Output` of a finished subprocess.  `stdout` and
`stderr` are modelled after UTF-8 decoding; `status` is the exit code. -/
structure Output where
  stdout : String
  stderr : String
  status : Int
deriving DecidableEq

/-- `vale.rs::ValeManager::parse_output`, with the serde JSON decoder for
`HashMap<String, Vec<ValeAlert>>` supplied as the oracle `parseAlerts`
(`none` models a decoding failure).  If stdout is non-empty the decoded map
is returned (or the JSON error propagates); otherwise the stderr text is
returned as a message error.  The exit status is never consulted. -/
def parse_output (parseAlerts : String → Option (List (String × List ValeAlert)))
    (out : Output) : Except Error (List (String × List ValeAlert)) :=
  if out.stdout ≠ "" then
    match parseAlerts out.stdout with
    | some results => .ok results
    | none => .error .Json
  else
    .error (.Msg out.stderr)

/-- The path state of `vale.rs::ValeManager`: the managed executable path and
the fallback executable discovered at startup. -/
structure ValeManager where
  managed_exe : String
  fallback_exe : String

/-- `vale.rs::ValeManager::exe_path`, with the filesystem existence check
supplied as the oracle `fsExists`. -/
def exe_path (fsExists : String → Bool) (m : ValeManager) (managed : Bool) :
    Except Error String :=
  if fsExists m.managed_exe then
    .ok m.managed_exe
  else if fsExists m.fallback_exe && !managed then
    .ok m.fallback_exe
  else
    .error (.Msg "Vale is not installed.")

/-- The executable chosen by `vale.rs::ValeManager::run` (the lint
invocation), which calls `self.exe_path(false)`. -/
def run_exe (fsExists : String → Bool) (m : ValeManager) :
    Except Error String :=
  exe_path fsExists m false

/-! ## `styles.rs`: style-root indexing and vocabulary files -/

/-- A filesystem node: a directory with its immediate children, or a plain
file.  `StylesPath::index` only inspects the root children and, for each
directory child, that child's immediate children, so this one-level-at-a-time
tree is the whole state it reads. -/
inductive FsNode where
  | dir (name : String) (children : List FsNode)
  | file (name : String)

/-- The file or directory name of a node (`StylesPath::entry_name`). -/
def FsNode.name : FsNode → String
  | .dir n _ => n
  | .file n => n

/-- `Path::is_dir`. -/
def FsNode.isDir : FsNode → Bool
  | .dir _ _ => true
  | .file _ => false

/-- The immediate children of a node (empty for a plain file). -/
def FsNode.children : FsNode → List FsNode
  | .dir _ cs => cs
  | .file _ => []

/-- The characters after the last `.` of a list, if any. -/
def afterLastDot : List Char → Option (List Char)
  | [] => none
  | c :: cs =>
    match afterLastDot cs with
    | some e => some e
    | none => if c = '.' then some cs else none

/-- `Path::extension().unwrap_or("")` applied to a file name: the portion
after the final dot, where a dot in leading position does not start an
extension, and a missing extension collapses to the empty string. -/
def extension (name : String) : String :=
  match name.toList with
  | [] => ""
  | _ :: rest =>
    match afterLastDot rest with
    | some e => String.mk e
    | none => ""

/-- `styles.rs::EntryType`. -/
inductive EntryType where
  | Style
  | Vocab
  | Rule
deriving DecidableEq

/-- `styles.rs::PathEntry`. -/
structure PathEntry where
  name : String
  size : Nat
  path : String
  kind : EntryType
deriving DecidableEq

/-- `styles.rs::StylesPath::index_dir`: one entry (with size 0) per immediate
child whose name has extension `yml`, or that is a directory when indexing
the `Vocab` directory. -/
def index_dir (dirPath : String) (children : List FsNode) (kind : EntryType) :
    List PathEntry :=
  children.filterMap (fun node =>
    let ext := extension node.name
    if ext = "yml" || (node.isDir && kind = EntryType.Vocab) then
      some { name := node.name
             size := 0
             path := dirPath ++ "/" ++ node.name
             kind := kind }
    else
      none)

/-- `styles.rs::StylesPath::index`, with the immediate children of the style
root supplied as `subdirs`.  A child named `.vale-config` is skipped; a
directory child named `Vocab` contributes one Vocab entry per immediate
subdirectory; any other directory child contributes one Style entry whose
size is its immediate child count, plus one Rule entry per `.yml` child;
plain-file children contribute nothing. -/
def index (root : String) (subdirs : List FsNode) : List PathEntry :=
  subdirs.flatMap (fun node =>
    let dir_name := node.name
    let dirPath := root ++ "/" ++ dir_name
    if dir_name = ".vale-config" then
      []
    else if dir_name = "Vocab" && node.isDir then
      index_dir dirPath node.children EntryType.Vocab
    else if node.isDir then
      { name := dir_name
        size := node.children.length
        path := dirPath
        kind := EntryType.Style } :: index_dir dirPath node.children EntryType.Rule
    else
      [])

/-- `styles.rs::StylesPath::count`: entries of the given kind in the index. -/
def countKind (root : String) (subdirs : List FsNode) (kind : EntryType) : Nat :=
  ((index root subdirs).filter (fun e => e.kind = kind)).length

/-- `styles.rs::StylesPath::get` (filter of the index by kind). -/
def getKind (root : String) (subdirs : List FsNode) (kind : EntryType) :
    List PathEntry :=
  (index root subdirs).filter (fun e => e.kind = kind)

/-- `styles.rs::StylesPath::get_styles`: the filesystem Style entries with
the synthetic built-in `Vale` entry (size 4, empty path) prepended. -/
def get_styles (root : String) (subdirs : List FsNode) : List PathEntry :=
  { name := "Vale", size := 4, path := "", kind := EntryType.Style }
    :: getKind root subdirs EntryType.Style

/-! ## `styles.rs`: `add_to_vocab`

File contents are modelled as `List Char` (a Rust `String` after UTF-8
decoding).  `str::lines` splits on a newline, drops a final empty piece
produced by a trailing newline, and strips one trailing carriage return from
each line; `Vec::sort` on `&str` is the byte-lexicographic order, which on
UTF-8 agrees with the lexicographic order on Unicode scalar values. -/

/-- Splitting a character list on a separator; always at least one piece. -/
def splitOnChar (sep : Char) : List Char → List (List Char)
  | [] => [[]]
  | c :: cs =>
    if c = sep then
      [] :: splitOnChar sep cs
    else
      match splitOnChar sep cs with
      | [] => [[c]]
      | p :: ps => (c :: p) :: ps

/-- Stripping one trailing carriage return, as `str::lines` does per line. -/
def stripCr (l : List Char) : List Char :=
  if l.getLast? = some '\r' then l.dropLast else l

/-- Rust `str::lines`: split on newlines, drop the final empty piece coming
from a trailing newline (so the empty string has no lines), strip one
trailing carriage return per line. -/
def rustLines (content : List Char) : List (List Char) :=
  let ps := splitOnChar '\n' content
  let ps := if ps.getLast? = some [] then ps.dropLast else ps
  ps.map stripCr

/-- Joining lines with newlines (`Vec::join("\n")`). -/
def joinNl : List (List Char) → List Char
  | [] => []
  | [l] => l
  | l :: ls => l ++ '\n' :: joinNl ls

/-- Byte-lexicographic order on strings as used by Rust `Vec::<&str>::sort`,
expressed on Unicode scalar values (equivalent on UTF-8 bytes). -/
def strLe : List Char → List Char → Bool
  | [], _ => true
  | _ :: _, [] => false
  | a :: as_, b :: bs => a < b || (a = b && strLe as_ bs)

/-- The lexicographic order as a relation, for the sort. -/
def StrLe (a b : List Char) : Prop := strLe a b = true

instance : DecidableRel StrLe := fun a b => by
  unfold StrLe
  infer_instance

/-- The sorted permutation produced by `Vec::sort`.  `Vec::sort` is a stable
sort under a total order, and duplicate strings are equal, so its result is
the unique sorted permutation; `List.insertionSort` computes the same list. -/
def sortStrs (ls : List (List Char)) : List (List Char) :=
  List.insertionSort StrLe ls

/-- `styles.rs::StylesPath::add_to_vocab`, restricted to the content
transformation it performs on the vocabulary file: read the lines, push the
new term, sort, join with newlines, write back. -/
def add_to_vocab (content : List Char) (term : List Char) : List Char :=
  joinNl (sortStrs (rustLines content ++ [term]))

/-! ## `server.rs`: document kind classification and the document map -/

/-- `str::starts_with` on character lists (first argument: the text, second:
the pattern). -/
def startsWithL : List Char → List Char → Bool
  | _, [] => true
  | [], _ :: _ => false
  | c :: cs, d :: ds => c = d && startsWithL cs ds

/-- `str::contains` for a literal pattern: some suffix of the text starts
with the pattern. -/
def containsSubL (needle : List Char) : List Char → Bool
  | [] => needle.isEmpty
  | c :: cs => startsWithL (c :: cs) needle || containsSubL needle cs

/-- `uri.path().contains(pat)`. -/
def strContains (hay pat : String) : Bool :=
  containsSubL pat.toList hay.toList

/-- `uri.path().split('.').last().unwrap_or("")`: the final piece of the
split (the split always yields at least one piece). -/
def lastDotSegment (path : String) : String :=
  String.mk ((splitOnChar '.' path.toList).getLastD [])

/-- `server.rs::Backend::get_ext`, instrumented with an invocation count.
`configStyles` is the outcome of `self.cli.config(...)` (the styles path on
success) and `hasPath styles path` the outcome of
`StylesPath::new(styles).has(path).unwrap_or(false)`; both are oracles for
the external process and filesystem.  The second component of the result
counts how many times `cli.config` was invoked. -/
def get_ext (configStyles : Option String) (hasPath : String → String → Bool)
    (path : String) : String × Nat :=
  let ext := lastDotSegment path
  if strContains path ".vale.ini" then
    ("ini", 0)
  else if ext = "yml" then
    (match configStyles with
     | some styles => if hasPath styles path then "yml" else ""
     | none => "", 1)
  else
    ("", 0)

/-- The document kind used by `Backend::update` to decide tracking. -/
def classify (configStyles : Option String) (hasPath : String → String → Bool)
    (path : String) : String :=
  (get_ext configStyles hasPath path).1

/-- `server.rs::Backend::update`: insert the full text into the document map
only when the URI classifies to a non-empty kind; otherwise leave the map
unchanged.  The map is modelled extensionally as `String → Option String`. -/
def update (cls : String → String) (docs : String → Option String)
    (uri text : String) : String → Option String :=
  if cls uri ≠ "" then
    fun x => if x = uri then some text else docs x
  else
    docs

/-- The reachable document-map states of the server: the empty initial map,
closed under the `update` performed by every `did_open`, `did_change` and
`did_save` notification (all three route the full text through
`Backend::update`). -/
inductive Reachable (cls : String → String) : (String → Option String) → Prop
  | init : Reachable cls (fun _ => none)
  | step (docs : String → Option String) (uri text : String) :
      Reachable cls docs → Reachable cls (update cls docs uri text)

/-! ## Theorems -/

/-- C4: the output parsing of `invokeLint` succeeds if and only if the
subprocess stdout is non-empty and decodes as a JSON mapping from file path
to alert list; when stdout is empty the result is an error carrying exactly
the stderr text; and the exit status plays no role in the decision. -/
theorem claim_C4 (parseAlerts : String → Option (List (String × List ValeAlert)))
    (out : Output) (c1 c2 : Int) :
    ((∃ r, parse_output parseAlerts out = .ok r) ↔
      (out.stdout ≠ "" ∧ (parseAlerts out.stdout).isSome = true)) ∧
    (out.stdout = "" → parse_output parseAlerts out = .error (.Msg out.stderr)) ∧
    parse_output parseAlerts { out with status := c1 } =
      parse_output parseAlerts { out with status := c2 } := by
  refine ⟨?_, ?_, ?_⟩
  · constructor
    · rintro ⟨r, hr⟩
      by_cases h : out.stdout = ""
      · simp [parse_output, h] at hr
      · refine ⟨h, ?_⟩
        cases hp : parseAlerts out.stdout <;> simp [parse_output, h, hp] at hr ⊢
    · rintro ⟨h, hp⟩
      cases hp' : parseAlerts out.stdout with
      | none => rw [hp'] at hp; simp at hp
      | some v => exact ⟨v, by simp [parse_output, h, hp']⟩
  · intro h
    simp [parse_output, h]
  · simp [parse_output]

/-- Witness for C4 at a concrete parser and subprocess output. -/
theorem claim_C4_witness :
    (({ stdout := "", stderr := "E100", status := 0 } : Output).stdout = "") ∧
    parse_output (fun _ => some []) { stdout := "", stderr := "E100", status := 0 } =
      .error (.Msg "E100") :=
  ⟨rfl, (claim_C4 (fun _ => some []) { stdout := "", stderr := "E100", status := 0 }
      0 1).2.1 rfl⟩

/-- C5: executable resolution precedence: an existing managed executable is
always chosen; otherwise an existing fallback is chosen unless managed-only
resolution was requested; otherwise the distinguished not-installed error is
returned.  `run` (the lint invocation) resolves with `managed = false`, so it
uses the fallback when only the fallback exists and the managed executable
when both exist. -/
theorem claim_C5 (fsExists : String → Bool) (m : ValeManager) (managed : Bool) :
    (fsExists m.managed_exe = true →
      exe_path fsExists m managed = .ok m.managed_exe) ∧
    (fsExists m.managed_exe = false → fsExists m.fallback_exe = true →
      managed = false → exe_path fsExists m managed = .ok m.fallback_exe) ∧
    (fsExists m.managed_exe = false →
      (fsExists m.fallback_exe = false ∨ managed = true) →
      exe_path fsExists m managed = .error (.Msg "Vale is not installed.")) ∧
    (fsExists m.managed_exe = false → fsExists m.fallback_exe = true →
      run_exe fsExists m = .ok m.fallback_exe) ∧
    (fsExists m.managed_exe = true → run_exe fsExists m = .ok m.managed_exe) := by
  refine ⟨?_, ?_, ?_, ?_, ?_⟩
  · intro h1
    simp [exe_path, h1]
  · intro h1 h2 h3
    simp [exe_path, h1, h2, h3]
  · intro h1 h2
    rcases h2 with h2 | h2 <;> simp [exe_path, h1, h2]
  · intro h1 h2
    simp [run_exe, exe_path, h1, h2]
  · intro h1
    simp [run_exe, exe_path, h1]

/-- Witness for C5: only the fallback exists, and the lint invocation picks
it. -/
theorem claim_C5_witness :
    ((fun p => p = "/usr/bin/vale") ("/opt/bin/vale_bin/vale") = false) ∧
    ((fun p => p = "/usr/bin/vale") ("/usr/bin/vale") = true) ∧
    run_exe (fun p => p = "/usr/bin/vale")
      { managed_exe := "/opt/bin/vale_bin/vale", fallback_exe := "/usr/bin/vale" } =
      .ok "/usr/bin/vale" :=
  ⟨by decide, by decide,
    (claim_C5 (fun p => p = "/usr/bin/vale")
      { managed_exe := "/opt/bin/vale_bin/vale", fallback_exe := "/usr/bin/vale" }
      false).2.2.2.1 (by decide) (by decide)⟩

/-- C8: in every reachable server state, the document map holds an entry for
a URI only if that URI classifies to a non-none (non-empty) kind, and any
update of a URI that fails classification leaves the map without an entry
for that URI. -/
theorem claim_C8 (configStyles : Option String) (hasPath : String → String → Bool)
    (docs : String → Option String)
    (hreach : Reachable (classify configStyles hasPath) docs) :
    (∀ uri, (docs uri).isSome = true → classify configStyles hasPath uri ≠ "") ∧
    (∀ uri text, classify configStyles hasPath uri = "" →
      update (classify configStyles hasPath) docs uri text uri = none ∧
        docs uri = none) := by
  have inv : ∀ uri, (docs uri).isSome = true →
      classify configStyles hasPath uri ≠ "" := by
    induction hreach with
    | init => intro uri h; simp at h
    | step docs uri text _ ih =>
      intro u hu
      by_cases hc : classify configStyles hasPath uri ≠ ""
      · rw [update, if_pos hc] at hu
        by_cases he : u = uri
        · rwa [he]
        · exact ih u (by simpa [he] using hu)
      · rw [update, if_neg hc] at hu
        exact ih u hu
  refine ⟨inv, ?_⟩
  intro uri text hc
  have hnone : docs uri = none := by
    cases h : docs uri with
    | none => rfl
    | some t => exact absurd hc (inv uri (by simp [h]))
  exact ⟨by simp [update, hc, hnone], hnone⟩

/-- Witness for C8 at a concrete reachable state: after an update of an
unclassifiable URI from the initial state, the map reports no document. -/
theorem claim_C8_witness :
    classify none (fun _ _ => false) "/tmp/a.txt" = "" ∧
    update (classify none (fun _ _ => false)) (fun _ => none) "/tmp/a.txt" "body"
      "/tmp/a.txt" = none :=
  ⟨by decide,
    ((claim_C8 none (fun _ _ => false) (fun _ => none) .init).2
      "/tmp/a.txt" "body" (by decide)).1⟩

/-- C10: a URI whose path contains `.vale.ini` classifies as `ini` without
any invocation of the config subcommand, whatever its suffix; the config
subcommand is invoked exactly for `.yml`-suffixed paths that do not contain
the sentinel segment. -/
theorem claim_C10 (configStyles : Option String)
    (hasPath : String → String → Bool) (path : String) :
    (strContains path ".vale.ini" = true →
      get_ext configStyles hasPath path = ("ini", 0)) ∧
    ((get_ext configStyles hasPath path).2 = 1 ↔
      (strContains path ".vale.ini" = false ∧ lastDotSegment path = "yml")) := by
  constructor
  · intro h
    simp [get_ext, h]
  · by_cases h : strContains path ".vale.ini" = true
    · simp [get_ext, h]
    · rw [Bool.not_eq_true] at h
      by_cases hy : lastDotSegment path = "yml"
      · simp [get_ext, h, hy]
      · simp [get_ext, h, hy]

/-- Witness for C10: a `.yml`-suffixed path containing `.vale.ini`
classifies as `ini` with zero config invocations. -/
theorem claim_C10_witness :
    strContains "/w/.vale.ini.d/rule.yml" ".vale.ini" = true ∧
    get_ext (some "/styles") (fun _ _ => true) "/w/.vale.ini.d/rule.yml" =
      ("ini", 0) :=
  ⟨by decide,
    (claim_C10 (some "/styles") (fun _ _ => true) "/w/.vale.ini.d/rule.yml").1
      (by decide)⟩

/-- On a well-formed 1-based value, the wrapped `as u32 - 1` is the plain
predecessor. -/
theorem u32SubOne_eq {n : Nat} (h1 : 1 ≤ n) (h2 : n < U32) :
    u32SubOne n = n - 1 := by
  have hU : U32 = 4294967296 := by norm_num [U32]
  rw [u32SubOne, hU]
  rw [hU] at h2
  omega

/-- C1: for a lint result mapping one file to N alerts, `on_change` builds
exactly N diagnostics, one per alert in order, and each range is the exact
1-based to 0-based conversion: start line `alert.line - 1`, start character
`span.1 - 1`, end line `alert.line - 1`, end character `span.2`. -/
theorem claim_C1 (f : String) (l : List ValeAlert)
    (hwf : ∀ a ∈ l, 1 ≤ a.line ∧ a.line < U32 ∧ 1 ≤ a.span.1 ∧
      a.span.1 < U32 ∧ a.span.2 < U32) :
    (on_change_diagnostics [(f, l)]).length = l.length ∧
    on_change_diagnostics [(f, l)] = l.map alert_to_diagnostic ∧
    ∀ a ∈ l, (alert_to_diagnostic a).range =
      { start := { line := a.line - 1, character := a.span.1 - 1 },
        stop := { line := a.line - 1, character := a.span.2 } } := by
  refine ⟨by simp [on_change_diagnostics], by simp [on_change_diagnostics], ?_⟩
  intro a ha
  obtain ⟨h1, h2, h3, h4, h5⟩ := hwf a ha
  simp only [alert_to_diagnostic, alert_to_range]
  rw [u32SubOne_eq h1 h2, u32SubOne_eq h3 h4, Nat.mod_eq_of_lt h5]

/-- Witness for C1 at a concrete one-alert lint result. -/
theorem claim_C1_witness :
    (∀ a ∈ [({ action := { name := some "replace", params := none },
               check := "Vale.Spelling", matched := "teh", description := "",
               link := "", line := 3, span := (5, 7), severity := "error",
               message := "Did you mean tea" } : ValeAlert)],
        1 ≤ a.line ∧ a.line < U32 ∧ 1 ≤ a.span.1 ∧ a.span.1 < U32 ∧
          a.span.2 < U32) ∧
    (on_change_diagnostics [("f.md",
      [({ action := { name := some "replace", params := none },
          check := "Vale.Spelling", matched := "teh", description := "",
          link := "", line := 3, span := (5, 7), severity := "error",
          message := "Did you mean tea" } : ValeAlert)])]).length = 1 ∧
    (alert_to_diagnostic
      ({ action := { name := some "replace", params := none },
         check := "Vale.Spelling", matched := "teh", description := "",
         link := "", line := 3, span := (5, 7), severity := "error",
         message := "Did you mean tea" } : ValeAlert)).range =
      { start := { line := 2, character := 4 }, stop := { line := 2, character := 7 } } := by
  have h := claim_C1 "f.md"
    [({ action := { name := some "replace", params := none },
        check := "Vale.Spelling", matched := "teh", description := "",
        link := "", line := 3, span := (5, 7), severity := "error",
        message := "Did you mean tea" } : ValeAlert)]
    (by intro a ha; simp at ha; subst ha; refine ⟨by norm_num, by norm_num [U32], by norm_num, by norm_num [U32], by norm_num [U32]⟩)
  exact ⟨by intro a ha; simp at ha; subst ha; exact ⟨by norm_num, by norm_num [U32], by norm_num, by norm_num [U32], by norm_num [U32]⟩,
    h.1, h.2.2 _ (by simp)⟩

/-- C3: for alerts with identical line and span, the edit built for the
removal action has `end.character` exactly one greater than the edit built
for any other action name, and the non-removal edit range is exactly the
diagnostic range from `alert_to_range`, unchanged. -/
theorem claim_C3 (a1 a2 : ValeAlert) (n2 : String)
    (hline : a1.line = a2.line) (hspan : a1.span = a2.span)
    (h1 : a1.action.name = some "remove") (h2 : a2.action.name = some n2)
    (hn2 : n2 ≠ "remove") (hwf : a1.span.2 + 1 < U32) :
    code_action_edit_range a2 = some (alert_to_range a2) ∧
    ∃ r1, code_action_edit_range a1 = some r1 ∧
      r1.stop.character = (alert_to_range a2).stop.character + 1 ∧
      r1.stop.line = (alert_to_range a2).stop.line ∧
      r1.start = (alert_to_range a2).start := by
  constructor
  · simp [code_action_edit_range, h2, hn2]
  · refine ⟨{ start := (alert_to_range a1).start,
              stop := { line := (alert_to_range a1).stop.line,
                        character := ((alert_to_range a1).stop.character + 1) % U32 } },
            ?_, ?_, ?_, ?_⟩
    · simp [code_action_edit_range, h1]
    · simp only [alert_to_range]
      rw [← hspan]
      have h : a1.span.2 % U32 = a1.span.2 := Nat.mod_eq_of_lt (by omega)
      rw [h, Nat.mod_eq_of_lt hwf]
    · simp [alert_to_range, hline]
    · simp [alert_to_range, hline, hspan]

/-- Witness for C3 at two concrete alerts sharing line and span. -/
theorem claim_C3_witness :
    (({ action := { name := some "remove", params := none }, check := "c",
        matched := "x", description := "", link := "", line := 2,
        span := (4, 6), severity := "warning", message := "m" } : ValeAlert).span.2
      + 1 < U32) ∧
    code_action_edit_range
      ({ action := { name := some "replace", params := none }, check := "c",
         matched := "x", description := "", link := "", line := 2,
         span := (4, 6), severity := "warning", message := "m" } : ValeAlert) =
      some (alert_to_range
        ({ action := { name := some "replace", params := none }, check := "c",
           matched := "x", description := "", link := "", line := 2,
           span := (4, 6), severity := "warning", message := "m" } : ValeAlert)) := by
  have h := claim_C3
    ({ action := { name := some "remove", params := none }, check := "c",
       matched := "x", description := "", link := "", line := 2,
       span := (4, 6), severity := "warning", message := "m" } : ValeAlert)
    ({ action := { name := some "replace", params := none }, check := "c",
       matched := "x", description := "", link := "", line := 2,
       span := (4, 6), severity := "warning", message := "m" } : ValeAlert)
    "replace" rfl rfl rfl rfl (by decide) (by norm_num [U32])
  exact ⟨by norm_num [U32], h.1⟩

/-- C6: indexing a style root holding one style directory with exactly three
rule files, one `Vocab` directory with exactly two domain subdirectories and
a `.vale-config` directory yields exactly 3 Rule entries, 2 Vocab entries
and 1 Style entry of size 3; `get_styles` prepends the single synthetic
built-in entry; and the `.vale-config` child contributes no entries at
all. -/
theorem claim_C6 (root sname n1 n2 n3 dn1 dn2 : String)
    (cs1 cs2 ccfg : List FsNode)
    (hs1 : sname ≠ ".vale-config") (hs2 : sname ≠ "Vocab")
    (he1 : extension n1 = "yml") (he2 : extension n2 = "yml")
    (he3 : extension n3 = "yml") :
    countKind root [FsNode.dir sname [FsNode.file n1, FsNode.file n2, FsNode.file n3],
      FsNode.dir "Vocab" [FsNode.dir dn1 cs1, FsNode.dir dn2 cs2],
      FsNode.dir ".vale-config" ccfg] EntryType.Rule = 3 ∧
    countKind root [FsNode.dir sname [FsNode.file n1, FsNode.file n2, FsNode.file n3],
      FsNode.dir "Vocab" [FsNode.dir dn1 cs1, FsNode.dir dn2 cs2],
      FsNode.dir ".vale-config" ccfg] EntryType.Vocab = 2 ∧
    countKind root [FsNode.dir sname [FsNode.file n1, FsNode.file n2, FsNode.file n3],
      FsNode.dir "Vocab" [FsNode.dir dn1 cs1, FsNode.dir dn2 cs2],
      FsNode.dir ".vale-config" ccfg] EntryType.Style = 1 ∧
    getKind root [FsNode.dir sname [FsNode.file n1, FsNode.file n2, FsNode.file n3],
      FsNode.dir "Vocab" [FsNode.dir dn1 cs1, FsNode.dir dn2 cs2],
      FsNode.dir ".vale-config" ccfg] EntryType.Style =
      [{ name := sname, size := 3, path := root ++ "/" ++ sname,
         kind := EntryType.Style }] ∧
    get_styles root [FsNode.dir sname [FsNode.file n1, FsNode.file n2, FsNode.file n3],
      FsNode.dir "Vocab" [FsNode.dir dn1 cs1, FsNode.dir dn2 cs2],
      FsNode.dir ".vale-config" ccfg] =
      [{ name := "Vale", size := 4, path := "", kind := EntryType.Style },
       { name := sname, size := 3, path := root ++ "/" ++ sname,
         kind := EntryType.Style }] ∧
    index root [FsNode.dir sname [FsNode.file n1, FsNode.file n2, FsNode.file n3],
      FsNode.dir "Vocab" [FsNode.dir dn1 cs1, FsNode.dir dn2 cs2],
      FsNode.dir ".vale-config" ccfg] =
      index root [FsNode.dir sname [FsNode.file n1, FsNode.file n2, FsNode.file n3],
        FsNode.dir "Vocab" [FsNode.dir dn1 cs1, FsNode.dir dn2 cs2]] := by
  have hidx : index root [FsNode.dir sname [FsNode.file n1, FsNode.file n2, FsNode.file n3],
      FsNode.dir "Vocab" [FsNode.dir dn1 cs1, FsNode.dir dn2 cs2],
      FsNode.dir ".vale-config" ccfg] =
      [{ name := sname, size := 3, path := root ++ "/" ++ sname,
         kind := EntryType.Style },
       { name := n1, size := 0, path := root ++ "/" ++ sname ++ "/" ++ n1,
         kind := EntryType.Rule },
       { name := n2, size := 0, path := root ++ "/" ++ sname ++ "/" ++ n2,
         kind := EntryType.Rule },
       { name := n3, size := 0, path := root ++ "/" ++ sname ++ "/" ++ n3,
         kind := EntryType.Rule },
       { name := dn1, size := 0, path := root ++ "/" ++ "Vocab" ++ "/" ++ dn1,
         kind := EntryType.Vocab },
       { name := dn2, size := 0, path := root ++ "/" ++ "Vocab" ++ "/" ++ dn2,
         kind := EntryType.Vocab }] := by
    simp [index, index_dir, FsNode.name, FsNode.isDir, FsNode.children,
      hs1, hs2, he1, he2, he3]
  have hidx2 : index root [FsNode.dir sname [FsNode.file n1, FsNode.file n2, FsNode.file n3],
      FsNode.dir "Vocab" [FsNode.dir dn1 cs1, FsNode.dir dn2 cs2]] =
      [{ name := sname, size := 3, path := root ++ "/" ++ sname,
         kind := EntryType.Style },
       { name := n1, size := 0, path := root ++ "/" ++ sname ++ "/" ++ n1,
         kind := EntryType.Rule },
       { name := n2, size := 0, path := root ++ "/" ++ sname ++ "/" ++ n2,
         kind := EntryType.Rule },
       { name := n3, size := 0, path := root ++ "/" ++ sname ++ "/" ++ n3,
         kind := EntryType.Rule },
       { name := dn1, size := 0, path := root ++ "/" ++ "Vocab" ++ "/" ++ dn1,
         kind := EntryType.Vocab },
       { name := dn2, size := 0, path := root ++ "/" ++ "Vocab" ++ "/" ++ dn2,
         kind := EntryType.Vocab }] := by
    simp [index, index_dir, FsNode.name, FsNode.isDir, FsNode.children,
      hs1, hs2, he1, he2, he3]
  refine ⟨?_, ?_, ?_, ?_, ?_, ?_⟩
  · rw [countKind, hidx]; rfl
  · rw [countKind, hidx]; rfl
  · rw [countKind, hidx]; rfl
  · rw [getKind, hidx]; rfl
  · rw [get_styles, getKind, hidx]; rfl
  · rw [hidx, hidx2]

/-- Witness for C6 at a concrete style root. -/
theorem claim_C6_witness :
    (("MyStyle" : String) ≠ ".vale-config") ∧ (("MyStyle" : String) ≠ "Vocab") ∧
    extension "a.yml" = "yml" ∧
    countKind "/styles" [FsNode.dir "MyStyle"
        [FsNode.file "a.yml", FsNode.file "b.yml", FsNode.file "c.yml"],
      FsNode.dir "Vocab" [FsNode.dir "Names" [], FsNode.dir "Terms" []],
      FsNode.dir ".vale-config" []] EntryType.Rule = 3 := by
  have h := claim_C6 "/styles" "MyStyle" "a.yml" "b.yml" "c.yml" "Names" "Terms"
    [] [] [] (by decide) (by decide) (by decide) (by decide) (by decide)
  exact ⟨by decide, by decide, by decide, h.1⟩

/-- The lexicographic order is reflexive on the left with `[]`. -/
theorem strLe_nil_left (x : List Char) : strLe [] x = true := rfl

/-- Only `[]` is below `[]` in the lexicographic order. -/
theorem eq_nil_of_strLe_nil : ∀ {x : List Char}, strLe x [] = true → x = []
  | [], _ => rfl
  | _ :: _, h => by simp [strLe] at h

/-- The lexicographic order is total. -/
theorem strLe_total : ∀ a b : List Char, strLe a b = true ∨ strLe b a = true
  | [], _ => Or.inl rfl
  | _ :: _, [] => Or.inr rfl
  | a :: as_, b :: bs => by
    simp only [strLe, Bool.or_eq_true, Bool.and_eq_true, decide_eq_true_eq]
    rcases lt_trichotomy a b with h | h | h
    · exact Or.inl (Or.inl h)
    · rcases strLe_total as_ bs with h2 | h2
      · exact Or.inl (Or.inr ⟨h, h2⟩)
      · exact Or.inr (Or.inr ⟨h.symm, h2⟩)
    · exact Or.inr (Or.inl h)

/-- The lexicographic order is transitive. -/
theorem strLe_trans : ∀ a b c : List Char,
    strLe a b = true → strLe b c = true → strLe a c = true
  | [], _, _, _, _ => rfl
  | _ :: _, [], _, hab, _ => by simp [strLe] at hab
  | _ :: _, _ :: _, [], _, hbc => by simp [strLe] at hbc
  | a :: as_, b :: bs, c :: cs, hab, hbc => by
    simp only [strLe, Bool.or_eq_true, Bool.and_eq_true, decide_eq_true_eq] at *
    rcases hab with h1 | ⟨h1, h1'⟩
    · rcases hbc with h2 | ⟨h2, h2'⟩
      · exact Or.inl (h1.trans h2)
      · exact Or.inl (h2 ▸ h1)
    · rcases hbc with h2 | ⟨h2, h2'⟩
      · exact Or.inl (h1 ▸ h2)
      · exact Or.inr ⟨h1.trans h2, strLe_trans as_ bs cs h1' h2'⟩

/-- Splitting always yields at least one piece. -/
theorem splitOnChar_ne_nil (sep : Char) : ∀ l, splitOnChar sep l ≠ []
  | [] => by simp [splitOnChar]
  | c :: cs => by
    by_cases h : c = sep
    · simp [splitOnChar, h]
    · simp only [splitOnChar, if_neg h]
      cases hs : splitOnChar sep cs <;> simp

/-- No piece of a split contains the separator. -/
theorem splitOnChar_not_mem (sep : Char) :
    ∀ l, ∀ p ∈ splitOnChar sep l, sep ∉ p
  | [] => by simp [splitOnChar]
  | c :: cs => by
    intro p hp
    by_cases h : c = sep
    · rw [splitOnChar, if_pos h] at hp
      rcases List.mem_cons.mp hp with rfl | hp'
      · simp
      · exact splitOnChar_not_mem sep cs p hp'
    · rw [splitOnChar, if_neg h] at hp
      cases hs : splitOnChar sep cs with
      | nil => exact absurd hs (splitOnChar_ne_nil sep cs)
      | cons q qs =>
        rw [hs] at hp
        rcases List.mem_cons.mp hp with rfl | hp'
        · intro hmem
          rcases List.mem_cons.mp hmem with h' | h'
          · exact h h'.symm
          · exact splitOnChar_not_mem sep cs q (hs ▸ List.mem_cons_self q qs) h'
        · exact splitOnChar_not_mem sep cs p (hs ▸ List.mem_cons_of_mem q hp')

/-- Splitting a separator-free list yields that single piece. -/
theorem splitOnChar_eq_single (sep : Char) :
    ∀ l, sep ∉ l → splitOnChar sep l = [l]
  | [], _ => rfl
  | c :: cs, h => by
    have hc : ¬c = sep := fun e => h (e ▸ List.mem_cons_self c cs)
    rw [splitOnChar, if_neg hc,
      splitOnChar_eq_single sep cs (fun m => h (List.mem_cons_of_mem c m))]

/-- Splitting after a separator-free head piece peels it off. -/
theorem splitOnChar_append (sep : Char) (t : List Char) :
    ∀ l, sep ∉ l → splitOnChar sep (l ++ sep :: t) = l :: splitOnChar sep t
  | [], _ => by simp [splitOnChar]
  | c :: cs, h => by
    have hc : ¬c = sep := fun e => h (e ▸ List.mem_cons_self c cs)
    rw [List.cons_append, splitOnChar, if_neg hc,
      splitOnChar_append sep t cs (fun m => h (List.mem_cons_of_mem c m))]

/-- Splitting inverts joining for newline-free pieces. -/
theorem splitOnChar_joinNl : ∀ ls : List (List Char), ls ≠ [] →
    (∀ x ∈ ls, '\n' ∉ x) → splitOnChar '\n' (joinNl ls) = ls
  | [], h, _ => absurd rfl h
  | [l], _, hnl => by
    rw [joinNl, splitOnChar_eq_single '\n' l (hnl l (List.mem_cons_self l []))]
  | l :: l' :: ls, _, hnl => by
    rw [show joinNl (l :: l' :: ls) = l ++ '\n' :: joinNl (l' :: ls) from rfl,
      splitOnChar_append '\n' (joinNl (l' :: ls)) l (hnl l (by simp)),
      splitOnChar_joinNl (l' :: ls) (by simp) (fun x hx => hnl x (by simp [hx]))]

/-- `stripCr` is the identity on a line with no trailing carriage return. -/
theorem stripCr_eq_self {l : List Char} (h : l.getLast? ≠ some '\r') :
    stripCr l = l := by
  rw [stripCr, if_neg h]

/-- `rustLines` inverts `joinNl` when no piece contains a newline, no piece
ends in a carriage return, and the final piece is nonempty. -/
theorem rustLines_joinNl (ls : List (List Char))
    (h1 : ∀ x ∈ ls, '\n' ∉ x) (h2 : ∀ x ∈ ls, x.getLast? ≠ some '\r')
    (h3 : ls.getLast? ≠ some []) : rustLines (joinNl ls) = ls := by
  cases ls with
  | nil => decide
  | cons a as =>
    rw [rustLines, splitOnChar_joinNl (a :: as) (by simp) h1]
    simp only [if_neg h3]
    calc (a :: as).map stripCr = (a :: as).map id :=
          List.map_congr_left (fun x hx => stripCr_eq_self (h2 x hx))
      _ = a :: as := List.map_id _

/-- A list whose `getLast?` is `some a` contains `a`. -/
theorem mem_of_getLast?_eq {α : Type} :
    ∀ {l : List α} {a : α}, l.getLast? = some a → a ∈ l
  | [], _, h => by simp at h
  | [x], a, h => by
    simp only [List.getLast?_singleton, Option.some.injEq] at h
    simp [h]
  | x :: y :: ys, a, h => by
    rw [show (x :: y :: ys).getLast? = (y :: ys).getLast? from by simp] at h
    exact List.mem_cons_of_mem x (mem_of_getLast?_eq h)

/-- A sorted list containing a nonempty string does not end with the empty
string. -/
theorem sorted_getLast?_ne_nil :
    ∀ L : List (List Char), List.Sorted StrLe L →
      ∀ t ∈ L, t ≠ [] → L.getLast? ≠ some []
  | [], _, t, ht, _ => by simp at ht
  | [x], _, t, ht, htne => by
    simp only [List.mem_singleton] at ht
    subst ht
    simp only [List.getLast?_singleton, ne_eq, Option.some.injEq]
    exact htne
  | x :: y :: ys, hs, t, ht, htne => by
    rw [show (x :: y :: ys).getLast? = (y :: ys).getLast? from by simp]
    rcases List.mem_cons.mp ht with rfl | ht'
    · intro hl
      have hmem : ([] : List Char) ∈ y :: ys := mem_of_getLast?_eq hl
      have hle : StrLe t [] := (List.sorted_cons.mp hs).1 [] hmem
      exact htne (eq_nil_of_strLe_nil hle)
    · exact sorted_getLast?_ne_nil (y :: ys) (List.sorted_cons.mp hs).2 t ht' htne

/-- Every line produced by `rustLines` is newline-free. -/
theorem rustLines_not_mem_nl (c : List Char) : ∀ l ∈ rustLines c, '\n' ∉ l := by
  intro l hl
  rw [rustLines] at hl
  obtain ⟨q, hq, rfl⟩ := List.mem_map.mp hl
  have hq' : q ∈ splitOnChar '\n' c := by
    by_cases h : (splitOnChar '\n' c).getLast? = some ([] : List Char)
    · rw [if_pos h] at hq
      exact List.dropLast_subset _ hq
    · rwa [if_neg h] at hq
  have hnl : '\n' ∉ q := splitOnChar_not_mem '\n' c q hq'
  intro hmem
  rw [stripCr] at hmem
  by_cases h : q.getLast? = some '\r'
  · rw [if_pos h] at hmem
    exact hnl (List.dropLast_subset _ hmem)
  · rw [if_neg h] at hmem
    exact hnl hmem

/-- C7 as stated is false: appending a term containing a newline (here
`"b\na"` to an empty accept list) produces a file whose lines are not the
sorted previous lines plus the term. -/
theorem claim_C7_cex :
    rustLines (add_to_vocab [] ['b', '\n', 'a']) ≠
      sortStrs (rustLines [] ++ [['b', '\n', 'a']]) := by decide

/-- C7 (amended): for every vocabulary file none of whose lines ends in a
carriage return, and every nonempty term that contains no newline and does
not end in a carriage return, `add_to_vocab` rewrites the file so that its
lines are exactly the lexicographically sorted previous lines plus the new
term. -/
theorem claim_C7 (content term : List Char)
    (ht0 : term ≠ []) (ht1 : '\n' ∉ term)
    (ht2 : term.getLast? ≠ some '\r')
    (hc : ∀ l ∈ rustLines content, l.getLast? ≠ some '\r') :
    rustLines (add_to_vocab content term) =
      sortStrs (rustLines content ++ [term]) := by
  have hmem : ∀ x ∈ sortStrs (rustLines content ++ [term]),
      x ∈ rustLines content ∨ x = term := by
    intro x hx
    have : x ∈ rustLines content ++ [term] :=
      (List.mem_insertionSort StrLe).mp hx
    rcases List.mem_append.mp this with h | h
    · exact Or.inl h
    · exact Or.inr (List.mem_singleton.mp h)
  have h1 : ∀ x ∈ sortStrs (rustLines content ++ [term]), '\n' ∉ x := by
    intro x hx
    rcases hmem x hx with h | rfl
    · exact rustLines_not_mem_nl content x h
    · exact ht1
  have h2 : ∀ x ∈ sortStrs (rustLines content ++ [term]),
      x.getLast? ≠ some '\r' := by
    intro x hx
    rcases hmem x hx with h | rfl
    · exact hc x h
    · exact ht2
  haveI : IsTotal (List Char) StrLe := ⟨fun a b => strLe_total a b⟩
  haveI : IsTrans (List Char) StrLe := ⟨fun a b c => strLe_trans a b c⟩
  have h3 : (sortStrs (rustLines content ++ [term])).getLast? ≠ some [] := by
    refine sorted_getLast?_ne_nil _ (List.sorted_insertionSort StrLe _) term ?_ ht0
    exact (List.mem_insertionSort StrLe).mpr (List.mem_append.mpr (Or.inr (by simp)))
  rw [add_to_vocab]
  exact rustLines_joinNl _ h1 h2 h3

/-- Witness for C7 (amended) at a concrete file and term: appending `bar` to
a file holding `foo` yields the sorted lines `bar`, `foo`. -/
theorem claim_C7_witness :
    (['b', 'a', 'r'] : List Char) ≠ [] ∧ '\n' ∉ (['b', 'a', 'r'] : List Char) ∧
    (['b', 'a', 'r'] : List Char).getLast? ≠ some '\r' ∧
    (∀ l ∈ rustLines ['f', 'o', 'o'], l.getLast? ≠ some '\r') ∧
    rustLines (add_to_vocab ['f', 'o', 'o'] ['b', 'a', 'r']) =
      sortStrs (rustLines ['f', 'o', 'o'] ++ [['b', 'a', 'r']]) :=
  ⟨by decide, by decide, by decide, by decide,
    claim_C7 ['f', 'o', 'o'] ['b', 'a', 'r'] (by decide) (by decide)
      (by decide) (by decide)⟩

/-- For a nonempty line of realistic length, the wrapped `count() - 1` is
the index of the last character. -/
theorem extentOf_eq {n : Nat} (h1 : 1 ≤ n) (h2 : n < USIZE) :
    extentOf n = n - 1 := by
  have hU : USIZE = 18446744073709551616 := by norm_num [USIZE]
  rw [extentOf, hU]
  rw [hU] at h2
  omega

/-- The left-expansion loop, entered within bounds, reads only in-bounds
characters and returns the greatest lower expansion: all characters strictly
between the result and the entry column are non-whitespace, and the result
sits at column zero or just right of a whitespace character. -/
theorem startLoop_ok (ws : Char → Bool) (l : List Char) :
    ∀ s, s ≤ l.length → ∃ t, startLoop ws l s = .ok t ∧ t ≤ s ∧
      (∀ j, t ≤ j → j < s → ∃ c, charAt l j = .ok c ∧ ws c = false) ∧
      (t = 0 ∨ ∃ c, charAt l (t - 1) = .ok c ∧ ws c = true) := by
  intro s
  induction s with
  | zero =>
    intro _
    exact ⟨0, rfl, Nat.le_refl 0, fun j _ hj => absurd hj (Nat.not_lt_zero j),
      Or.inl rfl⟩
  | succ s ih =>
    intro hs
    have hlt : s < l.length := Nat.lt_of_succ_le hs
    have hchar : charAt l s = .ok (l.get ⟨s, hlt⟩) := by
      rw [charAt, dif_pos hlt]
    have hunfold : startLoop ws l (s + 1) =
        if ws (l.get ⟨s, hlt⟩) then .ok (s + 1) else startLoop ws l s := by
      simp only [startLoop, hchar]
    cases hws : ws (l.get ⟨s, hlt⟩) with
    | true =>
      refine ⟨s + 1, ?_, Nat.le_refl _, ?_,
        Or.inr ⟨l.get ⟨s, hlt⟩, by simpa using hchar, hws⟩⟩
      · rw [hunfold, if_pos hws]
      · intro j h1 h2
        exact absurd h2 (by omega)
    | false =>
      obtain ⟨t, heq, hle, hint, hbd⟩ := ih (Nat.le_of_succ_le hs)
      refine ⟨t, ?_, Nat.le_succ_of_le hle, ?_, hbd⟩
      · rw [hunfold, if_neg (by simpa using hws), heq]
      · intro j h1 h2
        rcases Nat.lt_or_ge j s with h3 | h3
        · exact hint j h1 h3
        · have hj : j = s := Nat.le_antisymm (Nat.le_of_lt_succ h2) h3
          exact ⟨l.get ⟨s, hlt⟩, hj ▸ hchar, hws⟩

/-- The right-expansion loop with fuel `ext - e` and `ext` in bounds reads
only in-bounds characters and returns the least upper expansion: all
characters strictly between the entry column and the result are
non-whitespace, and the result sits at the loop bound or just left of a
whitespace character. -/
theorem endLoopAux_ok (ws : Char → Bool) (l : List Char) (ext : Nat)
    (hext : ext < l.length) :
    ∀ k e, k = ext - e → ∃ t, endLoopAux ws l k e = .ok t ∧ e ≤ t ∧
      t ≤ max e ext ∧
      (∀ j, e < j → j ≤ t → ∃ c, charAt l j = .ok c ∧ ws c = false) ∧
      (ext ≤ t ∨ ∃ c, charAt l (t + 1) = .ok c ∧ ws c = true) := by
  intro k
  induction k with
  | zero =>
    intro e hk
    refine ⟨e, rfl, Nat.le_refl e, Nat.le_max_left e ext,
      fun j h1 h2 => absurd (Nat.lt_of_lt_of_le h1 h2) (Nat.lt_irrefl e),
      Or.inl ?_⟩
    omega
  | succ k ih =>
    intro e hk
    have he : e + 1 ≤ ext := by omega
    have hlt : e + 1 < l.length := Nat.lt_of_le_of_lt he hext
    have hchar : charAt l (e + 1) = .ok (l.get ⟨e + 1, hlt⟩) := by
      rw [charAt, dif_pos hlt]
    have hunfold : endLoopAux ws l (k + 1) e =
        if ws (l.get ⟨e + 1, hlt⟩) then .ok e else endLoopAux ws l k (e + 1) := by
      simp only [endLoopAux, hchar]
    cases hws : ws (l.get ⟨e + 1, hlt⟩) with
    | true =>
      refine ⟨e, ?_, Nat.le_refl e, Nat.le_max_left e ext, ?_,
        Or.inr ⟨l.get ⟨e + 1, hlt⟩, hchar, hws⟩⟩
      · rw [hunfold, if_pos hws]
      · intro j h1 h2
        exact absurd h1 (by omega)
    | false =>
      obtain ⟨t, heq, hle, hmax, hint, hbd⟩ := ih (e + 1) (by omega)
      refine ⟨t, ?_, by omega, by omega, ?_, hbd⟩
      · rw [hunfold, if_neg (by simpa using hws), heq]
      · intro j h1 h2
        rcases Nat.lt_or_ge (e + 1) j with h3 | h3
        · exact hint j h3 h2
        · have hj : j = e + 1 := by omega
          exact ⟨l.get ⟨e + 1, hlt⟩, hj ▸ hchar, hws⟩

/-- C2: on a nonempty line with the cursor within it, `position_to_range`
performs no out-of-bounds read and returns: no token exactly when the
expansion cannot move in either direction (left blocked by column zero or a
whitespace neighbour, right blocked by the line end or a whitespace
neighbour); otherwise the maximal whitespace-delimited expansion around the
cursor, where the start is the leftmost column reachable through
non-whitespace characters and, whenever the right boundary moved at all, the
returned end column is one greater than the rightmost reached character
index.  In particular, on `"BasedOnStyles = Vale"` with the cursor at column
16 it returns the range covering columns 16 to 20. -/
theorem claim_C2 (ws : Char → Bool) (l : List Char) (index : Nat)
    (hne : l ≠ []) (hlen : l.length < USIZE) (hidx : index ≤ l.length) :
    (∃ r, position_to_range ws l index = .ok r) ∧
    (position_to_range ws l index = .ok none ↔
      ((index = 0 ∨ ∃ c, charAt l (index - 1) = .ok c ∧ ws c = true) ∧
       (l.length - 1 ≤ index ∨ ∃ c, charAt l (index + 1) = .ok c ∧ ws c = true))) ∧
    (∀ s e, position_to_range ws l index = .ok (some (s, e)) →
      s ≤ index ∧
      (∀ j, s ≤ j → j < index → ∃ c, charAt l j = .ok c ∧ ws c = false) ∧
      (s = 0 ∨ ∃ c, charAt l (s - 1) = .ok c ∧ ws c = true) ∧
      ∃ t, index ≤ t ∧ t ≤ l.length ∧
        (∀ j, index < j → j ≤ t → ∃ c, charAt l j = .ok c ∧ ws c = false) ∧
        (l.length - 1 ≤ t ∨ ∃ c, charAt l (t + 1) = .ok c ∧ ws c = true) ∧
        e = (if index < t then t + 1 else t)) ∧
    position_to_range Char.isWhitespace "BasedOnStyles = Vale".toList 16 =
      .ok (some (16, 20)) := by
  have hn1 : 1 ≤ l.length := List.length_pos.mpr hne
  have hext : extentOf l.length = l.length - 1 := extentOf_eq hn1 hlen
  have hextlt : l.length - 1 < l.length := by omega
  obtain ⟨s0, hs0eq, hs0le, hs0int, hs0bd⟩ := startLoop_ok ws l index hidx
  obtain ⟨e0, he0eq, he0ge, he0le, he0int, he0bd⟩ :=
    endLoopAux_ok ws l (l.length - 1) hextlt (l.length - 1 - index) index rfl
  have hpr : position_to_range ws l index =
      .ok (if s0 = e0 then none
           else some (s0, if index < e0 then e0 + 1 else e0)) := by
    rw [position_to_range]
    simp only [hext, endLoop, hs0eq, he0eq]
    split <;> rfl
  refine ⟨⟨_, hpr⟩, ?_, ?_, by rfl⟩
  · rw [hpr]
    constructor
    · intro h
      have hcond : s0 = e0 := by
        by_contra hc
        rw [if_neg hc] at h
        simp at h
      have hs0i : s0 = index := by omega
      have he0i : e0 = index := by omega
      constructor
      · rcases hs0bd with h1 | h1
        · exact Or.inl (by omega)
        · exact Or.inr (hs0i ▸ h1)
      · rcases he0bd with h1 | h1
        · exact Or.inl (by omega)
        · exact Or.inr (he0i ▸ h1)
    · rintro ⟨hL, hR⟩
      have hs0i : s0 = index := by
        by_contra hc
        have hlt : s0 < index := by omega
        obtain ⟨c, hcc, hcf⟩ := hs0int (index - 1) (by omega) (by omega)
        rcases hL with h1 | ⟨c', hcc', hct⟩
        · omega
        · rw [hcc] at hcc'
          cases hcc'
          rw [hcf] at hct
          exact Bool.false_ne_true hct
      have he0i : e0 = index := by
        by_contra hc
        have hlt : index < e0 := by omega
        obtain ⟨c, hcc, hcf⟩ := he0int (index + 1) (by omega) (by omega)
        rcases hR with h1 | ⟨c', hcc', hct⟩
        · have : e0 ≤ max index (l.length - 1) := he0le
          omega
        · rw [hcc] at hcc'
          cases hcc'
          rw [hcf] at hct
          exact Bool.false_ne_true hct
      rw [if_pos (by omega)]
  · intro s e h
    rw [hpr] at h
    by_cases hc : s0 = e0
    · rw [if_pos hc] at h
      simp at h
    · rw [if_neg hc] at h
      simp only [Except.ok.injEq, Option.some.injEq, Prod.mk.injEq] at h
      obtain ⟨rfl, rfl⟩ := h
      refine ⟨hs0le, hs0int, hs0bd, e0, he0ge, ?_, he0int, he0bd, rfl⟩
      have : e0 ≤ max index (l.length - 1) := he0le
      omega

/-- Witness for C2 at the concrete line from the specification. -/
theorem claim_C2_witness :
    ("BasedOnStyles = Vale".toList ≠ []) ∧
    ("BasedOnStyles = Vale".toList.length < USIZE) ∧
    (16 ≤ "BasedOnStyles = Vale".toList.length) ∧
    ∃ r, position_to_range Char.isWhitespace "BasedOnStyles = Vale".toList 16 =
      .ok r :=
  ⟨by decide, by decide, by decide,
    (claim_C2 Char.isWhitespace "BasedOnStyles = Vale".toList 16
      (by decide) (by decide) (by decide)).1⟩

/-- C9: evaluating the code at the failing input.  On an empty line (for
example the empty document) with the cursor at column zero, the Rust code
computes `extent` as `0 - 1` in `usize` and then reads `char(1)` on a line
with no characters: the model reports the out-of-bounds access that the
specification forbids. -/
theorem claim_C9 :
    position_to_range Char.isWhitespace [] 0 = .error () := by rfl

end ValeLs
